import Mathlib

/-!
Verification of the `scar` demo program (`src/recursive.c`).

The program prints a deterministic trace of lines to standard output while
running a mutual recursion between `RecursiveMadness_foo` and
`RecursiveMadness_bar`, mediated by the loop-bound helper
`RecursiveMadness_get_limit`.  We embed the trace-producing behaviour as pure
Lean functions over `Int` (C `int` arithmetic never overflows on the inputs
considered, and the recursion only subtracts small constants), and the
`this`-pointer-threading behaviour as explicit state passing over a
`RecursiveMadness` record.
-/

namespace Scar

/-- One line of program output, as produced by the three `printf` calls:
`Starting madness with <x>`, `bar loop i=<i>, count=<count>`, and
`Reached base in foo`. -/
inductive Line where
  | banner (x : Int)
  | barLoop (i : Int) (count : Int)
  | base
  deriving DecidableEq

/-- The owning record of `src/recursive.c` (struct `RecursiveMadness`):
grid dimensions, generation counter, two grid buffers, and a depth field.
Pointer-valued fields are modelled by the contents they point at. -/
structure RecursiveMadness where
  width : Int
  height : Int
  current_generation : Int
  grid : List Int
  next_grid : List Int
  depth : Int
  deriving DecidableEq

/-- `RecursiveMadness_new`: `malloc` leaves fields indeterminate (modelled as
parameters) and the constructor stores `0` into `depth` (twice in the source,
with the same effect). -/
def RecursiveMadness_new (w h cg : Int) (g ng : List Int) : RecursiveMadness :=
  { width := w, height := h, current_generation := cg,
    grid := g, next_grid := ng, depth := 0 }

/-- `RecursiveMadness_get_limit`, with the unused `this` argument dropped
(the body reads no field): `if (x < 0) return 0; return x % 4 + 2;`.
For `x ≥ 0` the C `%` agrees with Lean's `Int.emod`. -/
def get_limit (x : Int) : Int :=
  if x < 0 then 0 else x % 4 + 2

/-- The lines emitted by the `for` loop of `RecursiveMadness_bar`:
`for (int i = 0; i <= get_limit(count); i++)` prints
`bar loop i=%d, count=%d` with both fields equal to `i`, because the local
`int count = i;` shadows the argument. -/
def barLines (count : Int) : List Line :=
  (List.range ((get_limit count).toNat + 1)).map fun i : Nat =>
    Line.barLoop i i

mutual

/-- Trace of `RecursiveMadness_foo(this, level)`: if `level > 0` it calls
`bar(level - 1)` (via the shadowing local `int level = result - 1`),
otherwise it prints `Reached base in foo`. -/
def foo (level : Int) : List Line :=
  if 0 < level then bar (level - 1)
  else [Line.base]
termination_by (2 * level).toNat

/-- Trace of `RecursiveMadness_bar(this, count)`: the loop lines followed by
the trace of `foo(count - 1)`. -/
def bar (count : Int) : List Line :=
  barLines count ++ foo (count - 1)
termination_by (2 * count).toNat + 1

end

/-- Trace of `RecursiveMadness_start(this, x)`: the banner line followed by
the trace of `foo(x)`. -/
def start (x : Int) : List Line :=
  Line.banner x :: foo x

/-- `RecursiveMadness_get_limit` with the `this` pointer threaded explicitly:
the body reads and writes no field, so the record comes back as it went in. -/
def RecursiveMadness_get_limit (this : RecursiveMadness) (x : Int) :
    RecursiveMadness × Int :=
  if x < 0 then (this, 0) else (this, x % 4 + 2)

/-- The `for` loop of `RecursiveMadness_bar` with the `this` pointer threaded:
the loop bound comes from `RecursiveMadness_get_limit(this, count)` (the
source's `this->get_limit(count)` dispatch, which resolves to the only
`get_limit` that exists) and the loop body touches no field. -/
def RecursiveMadness_barLines (this : RecursiveMadness) (count : Int) :
    RecursiveMadness × List Line :=
  let p := RecursiveMadness_get_limit this count
  (p.1, (List.range (p.2.toNat + 1)).map fun i : Nat =>
    Line.barLoop i i)

mutual

/-- `RecursiveMadness_foo(this, level)` with explicit state passing. -/
def RecursiveMadness_foo (this : RecursiveMadness) (level : Int) :
    RecursiveMadness × List Line :=
  if 0 < level then RecursiveMadness_bar this (level - 1)
  else (this, [Line.base])
termination_by (2 * level).toNat

/-- `RecursiveMadness_bar(this, count)` with explicit state passing: first the
loop, then `RecursiveMadness_foo(this, count - 1)` on the resulting state. -/
def RecursiveMadness_bar (this : RecursiveMadness) (count : Int) :
    RecursiveMadness × List Line :=
  let p := RecursiveMadness_barLines this count
  let q := RecursiveMadness_foo p.1 (count - 1)
  (q.1, p.2 ++ q.2)
termination_by (2 * count).toNat + 1

end

/-- `RecursiveMadness_start(this, x)` with explicit state passing. -/
def RecursiveMadness_start (this : RecursiveMadness) (x : Int) :
    RecursiveMadness × List Line :=
  let p := RecursiveMadness_foo this x
  (p.1, Line.banner x :: p.2)

/-- The program's `main`: builds one record with `RecursiveMadness_new`
(the `malloc` junk of the uninitialised fields appears as parameters), runs
`RecursiveMadness_start(insane, 6)`, and returns `0`.  Result: the emitted
trace and the exit status. -/
def mainRun (w h cg : Int) (g ng : List Int) : List Line × Int :=
  let insane := RecursiveMadness_new w h cg g ng
  let p := RecursiveMadness_start insane 6
  (p.2, 0)

mutual

/-- Fuel-indexed interpreter for `RecursiveMadness_foo`: structural recursion
on the fuel, `none` when the call stack would grow beyond the fuel.  This
embeds the recursion without assuming its termination. -/
def fooFuel : Nat → Int → Option (List Line)
  | 0, _ => none
  | fuel + 1, level =>
    if 0 < level then barFuel fuel (level - 1) else some [Line.base]

/-- Fuel-indexed interpreter for `RecursiveMadness_bar`. -/
def barFuel : Nat → Int → Option (List Line)
  | 0, _ => none
  | fuel + 1, count =>
    (fooFuel fuel (count - 1)).map fun t => barLines count ++ t

end

/-- Recognizer for `bar loop` lines. -/
def Line.isBarLoop : Line → Bool
  | .barLoop _ _ => true
  | _ => false

/-- Recognizer for the `Reached base in foo` line. -/
def Line.isBase : Line → Bool
  | .base => true
  | _ => false

/-- Number of `bar loop` lines in a trace. -/
def barCount (t : List Line) : Nat :=
  (t.filter Line.isBarLoop).length

/-- Number of `Reached base in foo` lines in a trace. -/
def baseCount (t : List Line) : Nat :=
  (t.filter Line.isBase).length

theorem foo_pos {level : Int} (h : 0 < level) : foo level = bar (level - 1) := by
  rw [foo]
  simp [h]

theorem foo_nonpos {level : Int} (h : level ≤ 0) : foo level = [Line.base] := by
  rw [foo]
  simp [not_lt.mpr h]

theorem bar_eq (count : Int) : bar count = barLines count ++ foo (count - 1) := by
  rw [bar]

/-- The concrete trace of `start 6`: `foo` is reached with levels 6, 4, 2, 0
and `bar` with counts 5, 3, 1, whose loop bounds are 3, 5, 3. -/
theorem start6_eq : start 6 = [Line.banner 6,
    Line.barLoop 0 0, Line.barLoop 1 1, Line.barLoop 2 2, Line.barLoop 3 3,
    Line.barLoop 0 0, Line.barLoop 1 1, Line.barLoop 2 2, Line.barLoop 3 3,
    Line.barLoop 4 4, Line.barLoop 5 5,
    Line.barLoop 0 0, Line.barLoop 1 1, Line.barLoop 2 2, Line.barLoop 3 3,
    Line.base] := by
  rw [start, foo_pos (by norm_num), bar_eq, foo_pos (by norm_num), bar_eq,
    foo_pos (by norm_num), bar_eq, foo_nonpos (by norm_num)]
  rfl

/-- The concrete trace of `start 2`: `bar` runs once with count 1. -/
theorem start2_eq : start 2 = [Line.banner 2,
    Line.barLoop 0 0, Line.barLoop 1 1, Line.barLoop 2 2, Line.barLoop 3 3,
    Line.base] := by
  rw [start, foo_pos (by norm_num), bar_eq, foo_nonpos (by norm_num)]
  rfl

/-- Mutual induction principle following the call graph of `foo` and `bar`:
to establish `Pf` at every `foo` argument and `Pb` at every `bar` argument it
suffices to handle `foo`'s base case, `foo`'s call of `bar (l - 1)`, and
`bar`'s call of `foo (c - 1)`. -/
theorem foo_bar_induct (Pf Pb : Int → Prop)
    (hbase : ∀ l : Int, l ≤ 0 → Pf l)
    (hstep : ∀ l : Int, 0 < l → Pb (l - 1) → Pf l)
    (hbar : ∀ c : Int, Pf (c - 1) → Pb c) :
    (∀ l : Int, Pf l) ∧ (∀ c : Int, Pb c) := by
  have key : ∀ n : Nat, (∀ l : Int, (2 * l).toNat ≤ n → Pf l) ∧
      (∀ c : Int, (2 * c).toNat + 1 ≤ n → Pb c) := by
    intro n
    induction n with
    | zero =>
      exact ⟨fun l h => hbase l (by omega), fun c h => absurd h (by omega)⟩
    | succ n ih =>
      refine ⟨fun l h => ?_, fun c h => hbar c (ih.1 (c - 1) (by omega))⟩
      by_cases hl : 0 < l
      · exact hstep l hl (ih.2 (l - 1) (by omega))
      · exact hbase l (by omega)
  exact ⟨fun l => (key (2 * l).toNat).1 l le_rfl,
    fun c => (key ((2 * c).toNat + 1)).2 c le_rfl⟩

theorem get_limitS_eq (this : RecursiveMadness) (x : Int) :
    RecursiveMadness_get_limit this x = (this, get_limit x) := by
  unfold RecursiveMadness_get_limit get_limit
  split <;> rfl

theorem barLinesS_eq (this : RecursiveMadness) (count : Int) :
    RecursiveMadness_barLines this count = (this, barLines count) := by
  unfold RecursiveMadness_barLines barLines
  rw [get_limitS_eq]

/-- The state-passing embedding agrees with the pure one: no call reads or
writes any field of the record, so the record is returned unchanged and the
trace is the pure trace. -/
theorem fooS_barS_pure :
    (∀ l : Int, ∀ s : RecursiveMadness, RecursiveMadness_foo s l = (s, foo l)) ∧
    (∀ c : Int, ∀ s : RecursiveMadness, RecursiveMadness_bar s c = (s, bar c)) := by
  refine foo_bar_induct
    (fun l => ∀ s, RecursiveMadness_foo s l = (s, foo l))
    (fun c => ∀ s, RecursiveMadness_bar s c = (s, bar c)) ?_ ?_ ?_
  · intro l hl s
    rw [RecursiveMadness_foo, foo_nonpos hl]
    simp [not_lt.mpr hl]
  · intro l hl ih s
    rw [RecursiveMadness_foo, foo_pos hl]
    simp only [if_pos hl]
    exact ih s
  · intro c ih s
    rw [RecursiveMadness_bar, bar_eq]
    simp [barLinesS_eq, ih]

/-- Fuel adequacy: `2 * x.toNat + 2` stack frames are enough for `foo x`
(and one more for `bar`), and the fuel interpreter then computes exactly the
pure trace. -/
theorem fuel_adequate : ∀ fuel : Nat,
    (∀ x : Int, 2 * x.toNat + 2 ≤ fuel → fooFuel fuel x = some (foo x)) ∧
    (∀ c : Int, 2 * c.toNat + 3 ≤ fuel → barFuel fuel c = some (bar c)) := by
  intro fuel
  induction fuel with
  | zero =>
    exact ⟨fun x h => absurd h (by omega), fun c h => absurd h (by omega)⟩
  | succ n ih =>
    constructor
    · intro x h
      rw [fooFuel]
      by_cases hx : 0 < x
      · rw [if_pos hx, foo_pos hx]
        exact ih.2 (x - 1) (by omega)
      · rw [if_neg hx, foo_nonpos (by omega)]
    · intro c h
      rw [barFuel, bar_eq, ih.1 (c - 1) (by omega)]
      rfl

theorem barLines_length (c : Int) :
    (barLines c).length = (get_limit c).toNat + 1 := by
  rw [barLines, List.length_map, List.length_range]

theorem filter_barLines (c : Int) :
    (barLines c).filter Line.isBarLoop = barLines c := by
  refine List.filter_eq_self.mpr fun a ha => ?_
  simp only [barLines, List.mem_map, List.mem_range] at ha
  obtain ⟨j, _, rfl⟩ := ha
  rfl

theorem barCount_barLines (c : Int) :
    barCount (barLines c) = (get_limit c).toNat + 1 := by
  rw [barCount, filter_barLines, barLines_length]

theorem baseCount_barLines (c : Int) : baseCount (barLines c) = 0 := by
  rw [baseCount, List.length_eq_zero]
  refine List.filter_eq_nil_iff.mpr fun a ha => ?_
  simp only [barLines, List.mem_map, List.mem_range] at ha
  obtain ⟨j, _, rfl⟩ := ha
  simp [Line.isBase]

theorem barCount_append (s t : List Line) :
    barCount (s ++ t) = barCount s + barCount t := by
  simp [barCount, List.filter_append]

theorem baseCount_append (s t : List Line) :
    baseCount (s ++ t) = baseCount s + baseCount t := by
  simp [baseCount, List.filter_append]

theorem barCount_start (x : Int) : barCount (start x) = barCount (foo x) := by
  simp [start, barCount, List.filter_cons, Line.isBarLoop]

/-- The spec's claimed total for the `bar loop` lines of `start x`:
the sum of `limit(k) + 1` over every `k` from `0` to `x − 1`. -/
def claimBarSum (x : Int) : Nat :=
  ∑ k in Finset.range x.toNat, ((get_limit (k : Int)).toNat + 1)

/-- The actual total of `bar loop` lines of `start x` in closed form:
`bar` is reached only with counts `x − 1, x − 3, …` down to `1` or `0`,
one count per `foo → bar` round, so the sum ranges over
`k = x − 1 − 2j` for `j = 0, …, ⌈x/2⌉ − 1`. -/
def specBarSum (x : Int) : Nat :=
  ∑ j in Finset.range ((x.toNat + 1) / 2),
    ((get_limit (x - 1 - 2 * (j : Int))).toNat + 1)

theorem specBarSum_nonpos {x : Int} (hx : x ≤ 0) : specBarSum x = 0 := by
  have h0 : x.toNat = 0 := by omega
  simp [specBarSum, h0]

theorem specBarSum_rec (l : Int) (hl : 1 ≤ l) :
    specBarSum l = ((get_limit (l - 1)).toNat + 1) + specBarSum (l - 2) := by
  have hsplit : (l.toNat + 1) / 2 = ((l - 2).toNat + 1) / 2 + 1 := by omega
  rw [specBarSum, hsplit, Finset.sum_range_succ']
  rw [specBarSum]
  have harg : ∀ j : Nat, l - 1 - 2 * ((j : Int) + 1) = l - 2 - 1 - 2 * (j : Int) := by
    intro j
    ring
  simp only [Nat.cast_add, Nat.cast_one, harg, Nat.cast_zero, mul_zero, sub_zero]
  omega

/-- Closed form for the number of `bar loop` lines: a `foo l` run produces
`specBarSum l` of them, and a `bar c` run produces its own `limit(c) + 1`
plus those of the tail `foo (c - 1)`. -/
theorem barCount_foo_bar :
    (∀ l : Int, barCount (foo l) = specBarSum l) ∧
    (∀ c : Int, barCount (bar c) = (get_limit c).toNat + 1 + specBarSum (c - 1)) := by
  refine foo_bar_induct _ _ ?_ ?_ ?_
  · intro l hl
    rw [foo_nonpos hl, specBarSum_nonpos hl]
    rfl
  · intro l hl ih
    have h2 : l - 1 - 1 = l - 2 := by ring
    rw [foo_pos hl, ih, h2, ← specBarSum_rec l (by omega)]
  · intro c ih
    rw [bar_eq, barCount_append, barCount_barLines, ih]

/-- Every `bar loop` line anywhere in a `foo` or `bar` trace has equal
`i` and `count` fields. -/
theorem mem_barLoop_eq :
    (∀ l : Int, ∀ i c : Int, Line.barLoop i c ∈ foo l → i = c) ∧
    (∀ b : Int, ∀ i c : Int, Line.barLoop i c ∈ bar b → i = c) := by
  refine foo_bar_induct _ _ ?_ ?_ ?_
  · intro l hl i c hmem
    rw [foo_nonpos hl] at hmem
    simp at hmem
  · intro l hl ih i c hmem
    rw [foo_pos hl] at hmem
    exact ih i c hmem
  · intro b ih i c hmem
    rw [bar_eq] at hmem
    rcases List.mem_append.mp hmem with h | h
    · simp only [barLines, List.mem_map, List.mem_range] at h
      obtain ⟨j, _, hj⟩ := h
      injection hj with h1 h2
      omega
    · exact ih i c h

/-- Every `foo` or `bar` trace ends in the base line and contains it
exactly once. -/
theorem last_base_foo_bar :
    (∀ l : Int, (foo l).getLast? = some Line.base ∧ baseCount (foo l) = 1) ∧
    (∀ c : Int, (bar c).getLast? = some Line.base ∧ baseCount (bar c) = 1) := by
  refine foo_bar_induct _ _ ?_ ?_ ?_
  · intro l hl
    rw [foo_nonpos hl]
    exact ⟨rfl, rfl⟩
  · intro l hl ih
    rw [foo_pos hl]
    exact ih
  · intro c ih
    rw [bar_eq]
    have hne : foo (c - 1) ≠ [] := by
      intro h
      rw [h] at ih
      simp at ih
    constructor
    · rw [List.getLast?_append_of_ne_nil _ hne]
      exact ih.1
    · rw [baseCount_append, baseCount_barLines, ih.2]

/-- C1 (counterexample): `start 6` does not write 21 lines, and not 19
`bar loop` lines either: `foo(l)` calls `bar(l − 1)` and `bar(c)` calls
`foo(c − 1)`, so `bar` is reached only with counts 5, 3, 1 — the actual
totals are 16 lines and 14 `bar loop` lines. -/
theorem C1_counterexample :
    (start 6).length ≠ 21 ∧ barCount (start 6) ≠ 19 := by
  rw [start6_eq]
  decide

/-- C1 (amended): `start 6` writes exactly 16 newline-terminated lines: the
banner `Starting madness with 6`, then for count = 5, 3, 1 in that order
`limit(count) + 1` `bar loop` lines (4 + 6 + 4 = 14 in total), and finally
`Reached base in foo`. -/
theorem C1_start6_trace :
    start 6 = [Line.banner 6,
      Line.barLoop 0 0, Line.barLoop 1 1, Line.barLoop 2 2, Line.barLoop 3 3,
      Line.barLoop 0 0, Line.barLoop 1 1, Line.barLoop 2 2, Line.barLoop 3 3,
      Line.barLoop 4 4, Line.barLoop 5 5,
      Line.barLoop 0 0, Line.barLoop 1 1, Line.barLoop 2 2, Line.barLoop 3 3,
      Line.base] ∧
    (start 6).length = 16 ∧ barCount (start 6) = 14 := by
  refine ⟨start6_eq, ?_, ?_⟩ <;> rw [start6_eq] <;> decide

/-- C2 (counterexample): at `x = 2` the trace of `start x` holds 4 `bar loop`
lines, not `Σ_{k=0}^{x−1} (limit(k) + 1) = 7`: `bar` never runs with
count 0 on this run. -/
theorem C2_counterexample : barCount (start 2) ≠ claimBarSum 2 := by
  rw [start2_eq]
  decide

/-- C2 (amended): for every `x ≥ 1` the total number of `bar loop` lines
emitted by `start x` equals the sum of `limit(k) + 1` over
`k = x − 1, x − 3, …` down to 1 or 0 (one value of `k` per `foo → bar`
round), that is `Σ_{j=0}^{⌈x/2⌉−1} (limit(x − 1 − 2j) + 1)`. -/
theorem C2_barloop_total (x : Int) (_hx : 1 ≤ x) :
    barCount (start x) = specBarSum x := by
  rw [barCount_start]
  exact barCount_foo_bar.1 x

/-- C2 witness at `x = 2`. -/
theorem C2_witness : 1 ≤ (2 : Int) ∧ barCount (start 2) = specBarSum 2 :=
  ⟨by decide, C2_barloop_total 2 (by decide)⟩

/-- C3: on entry, `bar count` first emits exactly `limit(count) + 1` lines
`bar loop i=<i>, count=<i>` for `i = 0` through `limit(count)` inclusive,
with both printed integers equal to the loop index `i`, and then invokes
`foo (count − 1)`. -/
theorem C3_bar_contract (c : Int) :
    bar c = barLines c ++ foo (c - 1) ∧
    (barLines c).length = (get_limit c).toNat + 1 ∧
    ∀ i : Nat, i ≤ (get_limit c).toNat →
      (barLines c).getD i Line.base = Line.barLoop i i := by
  refine ⟨bar_eq c, barLines_length c, fun i hi => ?_⟩
  have hlt : i < (barLines c).length := by
    rw [barLines_length]
    omega
  rw [List.getD_eq_getElem _ _ hlt]
  simp [barLines]

/-- C3 witness at `count = 0`, `i = 2`. -/
theorem C3_witness :
    2 ≤ (get_limit 0).toNat ∧ (barLines 0).getD 2 Line.base = Line.barLoop 2 2 :=
  ⟨by decide, (C3_bar_contract 0).2.2 2 (by decide)⟩

/-- C4: the loop-bound helper is pure and total over all integers: 0 on every
negative input, `x % 4 + 2 ∈ {2, 3, 4, 5}` on every non-negative input, with
the listed unit checks. -/
theorem C4_limit_contract :
    (∀ x : Int, x < 0 → get_limit x = 0) ∧
    (∀ x : Int, 0 ≤ x → get_limit x = x % 4 + 2 ∧
      (get_limit x = 2 ∨ get_limit x = 3 ∨ get_limit x = 4 ∨ get_limit x = 5)) ∧
    get_limit (-1) = 0 ∧ get_limit 0 = 2 ∧ get_limit 1 = 3 ∧
    get_limit 2 = 4 ∧ get_limit 3 = 5 ∧ get_limit 4 = 2 ∧ get_limit 7 = 5 := by
  refine ⟨fun x hx => ?_, fun x hx => ?_, by decide, by decide, by decide,
    by decide, by decide, by decide, by decide⟩
  · rw [get_limit, if_pos hx]
  · rw [get_limit, if_neg (not_lt.mpr hx)]
    exact ⟨rfl, by omega⟩

/-- C4 witness at `x = -5` and `x = 6`. -/
theorem C4_witness : get_limit (-5) = 0 ∧ get_limit 6 = 6 % 4 + 2 :=
  ⟨C4_limit_contract.1 (-5) (by decide), (C4_limit_contract.2.1 6 (by decide)).1⟩

/-- C5: `foo level` invokes `bar (level − 1)` and emits nothing of its own
when `level > 0`; when `level ≤ 0` it emits exactly the base line and
returns without calling `bar`. -/
theorem C5_foo_contract (level : Int) :
    (0 < level → foo level = bar (level - 1)) ∧
    (level ≤ 0 → foo level = [Line.base]) :=
  ⟨fun h => foo_pos h, fun h => foo_nonpos h⟩

/-- C5 witness at levels 1 and 0. -/
theorem C5_witness : foo 1 = bar (1 - 1) ∧ foo 0 = [Line.base] :=
  ⟨(C5_foo_contract 1).1 (by decide), (C5_foo_contract 0).2 (by decide)⟩

/-- C6: for every non-negative `x` the run of `start x` terminates — the
fuel-indexed interpreter completes within `2x + 2` frames and returns the
finite trace of `foo x` — and the process exit status is 0. -/
theorem C6_termination (x : Int) (_hx : 0 ≤ x) :
    fooFuel (2 * x.toNat + 2) x = some (foo x) ∧
    ∀ w h cg : Int, ∀ g ng : List Int, (mainRun w h cg g ng).2 = 0 :=
  ⟨(fuel_adequate (2 * x.toNat + 2)).1 x le_rfl, fun _ _ _ _ _ => rfl⟩

/-- C6 witness at `x = 3`. -/
theorem C6_witness :
    fooFuel (2 * (3 : Int).toNat + 2) 3 = some (foo 3) ∧
    (mainRun 1 2 3 [4] [5]).2 = 0 :=
  ⟨(C6_termination 3 (by decide)).1, (C6_termination 3 (by decide)).2 1 2 3 [4] [5]⟩

/-- C7: every `bar loop` line the program ever emits, for any starting input,
has its printed `i` equal to its printed `count`: the loop-local binding
shadows `bar`'s argument. -/
theorem C7_barloop_fields (x i c : Int) (hmem : Line.barLoop i c ∈ start x) :
    i = c := by
  rw [start] at hmem
  rcases List.mem_cons.mp hmem with h | h
  · exact absurd h (by simp)
  · exact mem_barLoop_eq.1 x i c h

/-- C7 witness: the line `bar loop i=2, count=2` occurs in `start 6`. -/
theorem C7_witness : Line.barLoop 2 2 ∈ start 6 ∧ (2 : Int) = 2 :=
  ⟨by rw [start6_eq]; decide,
   C7_barloop_fields 6 2 2 (by rw [start6_eq]; decide)⟩

/-- C8: for every non-negative `x` the last line emitted by `start x` is
`Reached base in foo`, and that line occurs exactly once in the trace. -/
theorem C8_last_line (x : Int) (_hx : 0 ≤ x) :
    (start x).getLast? = some Line.base ∧ baseCount (start x) = 1 := by
  have hne : foo x ≠ [] := by
    intro h
    have hlast := (last_base_foo_bar.1 x).1
    rw [h] at hlast
    simp at hlast
  constructor
  · rw [start, ← List.singleton_append, List.getLast?_append_of_ne_nil _ hne]
    exact (last_base_foo_bar.1 x).1
  · rw [start, ← List.singleton_append, baseCount_append,
      (last_base_foo_bar.1 x).2]
    rfl

/-- C8 witness at `x = 0`. -/
theorem C8_witness :
    0 ≤ (0 : Int) ∧
    ((start 0).getLast? = some Line.base ∧ baseCount (start 0) = 1) :=
  ⟨by decide, C8_last_line 0 (by decide)⟩

/-- C9: no field of the record is read or written during the run: the
state-passing run of `start` returns the record exactly as it was when
`start` was invoked, and the emitted trace does not depend on the record. -/
theorem C9_frame (s : RecursiveMadness) (x : Int) :
    RecursiveMadness_start s x = (s, start x) ∧
    ∀ s' : RecursiveMadness,
      (RecursiveMadness_start s x).2 = (RecursiveMadness_start s' x).2 := by
  have hs : ∀ t : RecursiveMadness, RecursiveMadness_start t x = (t, start x) := by
    intro t
    rw [RecursiveMadness_start, start, fooS_barS_pure.1 x t]
  exact ⟨hs s, fun s' => by rw [hs s, hs s']⟩

/-- C10: for every `x ≤ 0`, `start x` terminates at once, emitting exactly
the banner and the base line with `bar` never reached; and a direct call
`bar c` with `c < 0` emits exactly one loop line and then the base line. -/
theorem C10_nonpositive (x : Int) :
    (x ≤ 0 → start x = [Line.banner x, Line.base]) ∧
    (x < 0 → bar x = [Line.barLoop 0 0, Line.base]) := by
  constructor
  · intro hx
    rw [start, foo_nonpos hx]
  · intro hx
    have hbl : barLines x = [Line.barLoop 0 0] := by
      rw [barLines, get_limit, if_pos hx]
      rfl
    rw [bar_eq, foo_nonpos (by omega), hbl]
    rfl

/-- C10 witness at `x = -1`. -/
theorem C10_witness :
    start (-1) = [Line.banner (-1), Line.base] ∧
    bar (-1) = [Line.barLoop 0 0, Line.base] :=
  ⟨(C10_nonpositive (-1)).1 (by decide), (C10_nonpositive (-1)).2 (by decide)⟩

end Scar
